import Mathlib

/-!
# Internship listing client (`src/static/js/main.js`)

A shallow embedding of the browser script: the module-level variables, the
parts of the DOM the script reads and writes, and one transition per
callback the browser can run (completion of an awaited read, an input or
change event, a click).

Conventions of the embedding.

* JavaScript numbers that hold page numbers and indices are `Int`; lengths are `Nat`.
* JavaScript strings are `String`. `String.prototype.toLowerCase` is a built-in of the
  language and not part of the script: it is a parameter `toLowerCase : String → String` of
  every function that reaches it, and the theorems hold for every such function. Where a
  statement needs to know a value of it, it assumes `LowersAscii`: on a string of ASCII
  characters the built-in maps `A`-`Z` to `a`-`z` and keeps every other character.
* A record field that may be missing (`undefined`/`null`) is an `Option`.
* The markup written into the table body and the pagination list is kept as a
  small syntax tree (`TableBody`, `PageItem`) instead of an HTML string.
-/

namespace InternScraper

/-! ## Data model -/

/-- JSON primitive used as a record key. On such values `===` is structural equality. -/
inductive JsKey where
  | num (n : Int)
  | str (s : String)
  deriving DecidableEq, Repr

/-- Record of `/api/companies`. -/
structure Company where
  id : JsKey
  industry : Option String
  market : Option String
  deriving DecidableEq, Repr

/-- Record of `/api/internships`. -/
structure Internship where
  id : JsKey
  company_id : JsKey
  company_name : String
  title : String
  start_date : Option String
  end_date : Option String
  target : Option String
  application_url : String
  deriving DecidableEq, Repr

/-- Content of `#internshipsTableBody`. -/
inductive TableBody where
  /-- the spinner row written by `showLoading` -/
  | spinner
  /-- the single `colspan="6"` row with the load-failure message (the `catch` of `fetchData`) -/
  | loadFailure
  /-- the single `colspan="6"` row saying that nothing matches -/
  | noMatch
  /-- one `<tr>` per internship of the current page -/
  | rows (items : List Internship)
  deriving DecidableEq, Repr

/-- One `<li class="page-item">` of the pagination list. -/
inductive PageItem where
  /-- the "previous" link, with its `disabled` class and its `data-page` -/
  | previous (disabled : Bool) (dataPage : Int)
  /-- a numbered link, `data-page` is the number, with its `active` class -/
  | number (page : Int) (active : Bool)
  /-- the disabled "..." item; its link has no `data-page` -/
  | ellipsis
  /-- the "next" link, with its `disabled` class and its `data-page` -/
  | next (disabled : Bool) (dataPage : Int)
  deriving DecidableEq, Repr

/-- Result of `parseInt(this.dataset.page)` on the link of an item; `none` is `NaN`. -/
def PageItem.dataPage : PageItem → Option Int
  | .previous _ d => some d
  | .number p _ => some p
  | .ellipsis => none
  | .next _ d => some d

/-- Content of `#pagination` when it is not empty: the items, and the `totalPages`
captured by the click handlers that `renderPagination` attached to their links. -/
structure Pagination where
  items : List PageItem
  totalPages : Nat
  deriving DecidableEq, Repr

/-- Progress of the one call of `fetchData` made on `DOMContentLoaded`. -/
inductive FetchStage where
  /-- suspended at the read of `/api/companies` -/
  | awaitingCompanies
  /-- suspended at the read of `/api/internships` -/
  | awaitingInternships
  /-- `fetchData` has returned -/
  | settled
  deriving DecidableEq, Repr

/-- Module variables of `main.js`, the DOM nodes it uses, and the stage of `fetchData`. -/
structure State where
  allInternships : List Internship
  allCompanies : List Company
  currentPage : Int
  filteredInternships : List Internship
  /-- `#searchInput.value` -/
  searchInput : String
  /-- `#industryFilter.value` -/
  industryFilter : String
  /-- `#marketFilter.value` -/
  marketFilter : String
  /-- the `<option>`s this script appended to `#industryFilter` -/
  industryOptions : List String
  tableBody : TableBody
  /-- `#pagination`; `none` is `innerHTML = ''` -/
  pagination : Option Pagination
  fetchStage : FetchStage
  deriving DecidableEq, Repr

/-- Line 7: `const itemsPerPage = 10`. -/
def itemsPerPage : Nat := 10

/-! ## JavaScript built-ins used by the script -/

/-- Lower-casing of the ASCII letters: `A`-`Z` go to `a`-`z`, every other character stays.
It states what is assumed of the built-in on ASCII strings, and stands for the built-in in
the concrete examples, whose strings are all ASCII. -/
def asciiLower (s : String) : String := ⟨s.data.map Char.toLower⟩

/-- The string has ASCII characters only. -/
def IsAscii (s : String) : Prop := ∀ c ∈ s.data, c.toNat < 128

/-- What is assumed of `String.prototype.toLowerCase` where a value of it is needed: on a
string of ASCII characters it is the lower-casing of the ASCII letters. -/
def LowersAscii (toLowerCase : String → String) : Prop :=
  ∀ s : String, IsAscii s → toLowerCase s = asciiLower s

/-- `String.prototype.includes`: does `search` occur in `s` as a contiguous run? -/
def includes (s search : String) : Bool :=
  s.data.tails.any fun t => search.data.isPrefixOf t

/-- Truthiness of a string: every string but the empty one. -/
def truthy (s : String) : Bool := !(s == "")

/-- Index normalisation of `Array.prototype.slice`: a negative index counts from the end. -/
def relativeIndex (len : Nat) (i : Int) : Nat :=
  if i < 0 then (len + i).toNat else min i.toNat len

/-- `Array.prototype.slice(start, end)`. -/
def slice {α : Type} (xs : List α) (start stop : Int) : List α :=
  let k := relativeIndex xs.length start
  let final := relativeIndex xs.length stop
  (xs.drop k).take (final - k)

/-- `Math.ceil(n / itemsPerPage)` for a length `n`. -/
def ceilPages (n : Nat) : Nat := (n + (itemsPerPage - 1)) / itemsPerPage

/-! ## The functions of `main.js` -/

/-- Lines 259-273: `showLoading`. -/
def showLoading (s : State) : State :=
  { s with tableBody := .spinner, pagination := none }

/-- Lines 59-66: the `Set` of industries, in insertion order. `Set.prototype.add`
appends a value that is not yet present. -/
def industries (allCompanies : List Company) : List String :=
  allCompanies.foldl
    (fun acc company =>
      match company.industry with
      | some v => if truthy v then (if v ∈ acc then acc else acc ++ [v]) else acc
      | none => acc)
    []

/-- Lines 57-75: `populateIndustryFilter`; one option per member of the set is appended. -/
def populateIndustryFilter (s : State) : State :=
  { s with industryOptions := s.industryOptions ++ industries s.allCompanies }

/-- Lines 86-88: the search condition of the filter callback. -/
def matchesSearch (toLowerCase : String → String) (searchTerm : String)
    (internship : Internship) : Bool :=
  includes (toLowerCase internship.company_name) searchTerm ||
    includes (toLowerCase internship.title) searchTerm

/-- Lines 91-95: the industry condition of the filter callback. -/
def matchesIndustry (allCompanies : List Company) (selectedIndustry : String)
    (internship : Internship) : Bool :=
  if truthy selectedIndustry then
    match allCompanies.find? (fun c => c.id == internship.company_id) with
    | some company => company.industry == some selectedIndustry
    | none => false
  else true

/-- Lines 98-102: the market condition of the filter callback. -/
def matchesMarket (allCompanies : List Company) (selectedMarket : String)
    (internship : Internship) : Bool :=
  if truthy selectedMarket then
    match allCompanies.find? (fun c => c.id == internship.company_id) with
    | some company => company.market == some selectedMarket
    | none => false
  else true

/-- Lines 129-131: the items of the current page. -/
def currentInternships {α : Type} (filteredInternships : List α) (currentPage : Int) : List α :=
  let startIndex := (currentPage - 1) * (itemsPerPage : Int)
  let endIndex := min (startIndex + (itemsPerPage : Int)) (filteredInternships.length : Int)
  slice filteredInternships startIndex endIndex

/-- Lines 195-216: the body of the `for` loop, for one `i`. -/
def pageLoopItem (currentPage : Int) (totalPages : Nat) (i : Int) : Option PageItem :=
  if i = 1 ∨ i = (totalPages : Int) ∨ (i ≥ currentPage - 2 ∧ i ≤ currentPage + 2) then
    some (.number i (i = currentPage))
  else if i = currentPage - 3 ∨ i = currentPage + 3 then
    some .ellipsis
  else none

/-- Line 195: the values `i` takes in `for (let i = 1; i <= totalPages; i++)`. -/
def loopIndices (totalPages : Nat) : List Int :=
  (List.range' 1 totalPages).map fun i : Nat => (i : Int)

/-- Lines 183-227: the items of the pagination list. -/
def paginationItems (currentPage : Int) (totalPages : Nat) : List PageItem :=
  [.previous (currentPage = 1) (currentPage - 1)] ++
    (loopIndices totalPages).filterMap (pageLoopItem currentPage totalPages) ++
    [.next (currentPage = (totalPages : Int)) (currentPage + 1)]

/-- Lines 174-246: `renderPagination`. The click handlers are the `totalPages` kept in the
control; their body is `pageLinkHandler`. -/
def renderPagination (s : State) : State :=
  let totalPages := ceilPages s.filteredInternships.length
  if totalPages ≤ 1 then { s with pagination := none }
  else { s with pagination := some ⟨paginationItems s.currentPage totalPages, totalPages⟩ }

/-- Lines 124-171: `renderInternships`. The cells of a row are functions of the internship,
so a row is kept as the internship it shows. -/
def renderInternships (s : State) : State :=
  let page := currentInternships s.filteredInternships s.currentPage
  if page.length = 0 then { s with tableBody := .noMatch, pagination := none }
  else renderPagination { s with tableBody := .rows page }

/-- Lines 232-244: the click handler of a pagination link, with the `totalPages` it captured
and the value `page` that `parseInt` gave (`none` is `NaN`). `page &&` rejects `NaN` and `0`. -/
def pageLinkHandler (totalPages : Nat) (page : Option Int) (s : State) : State :=
  match page with
  | none => s
  | some page =>
    if page ≠ 0 ∧ page ≠ s.currentPage ∧ page > 0 ∧ page ≤ (totalPages : Int) then
      renderInternships { s with currentPage := page }
    else s

/-- Lines 78-110: `filterInternships`. -/
def filterInternships (toLowerCase : String → String) (s : State) : State :=
  let searchTerm := toLowerCase s.searchInput
  let selectedIndustry := s.industryFilter
  let selectedMarket := s.marketFilter
  renderInternships
    { s with
      filteredInternships := s.allInternships.filter fun internship =>
        matchesSearch toLowerCase searchTerm internship &&
          matchesIndustry s.allCompanies selectedIndustry internship &&
          matchesMarket s.allCompanies selectedMarket internship
      currentPage := 1 }

/-- Lines 113-121: `resetFilters`. -/
def resetFilters (s : State) : State :=
  renderInternships
    { s with
      searchInput := "", industryFilter := "", marketFilter := ""
      filteredInternships := s.allInternships
      currentPage := 1 }

/-- Lines 28-29 of `fetchData`: the read of the companies has delivered `companies`. -/
def fetchDataCompanies (companies : List Company) (s : State) : State :=
  { s with allCompanies := companies, fetchStage := .awaitingInternships }

/-- Lines 32-40 and 53 of `fetchData`: the read of the internships has delivered `internships`. -/
def fetchDataInternships (internships : List Internship) (s : State) : State :=
  let s := populateIndustryFilter { s with allInternships := internships }
  renderInternships { s with filteredInternships := s.allInternships, fetchStage := .settled }

/-- Lines 42-53 of `fetchData`: the `catch` block. -/
def fetchDataCatch (s : State) : State :=
  { s with tableBody := .loadFailure, fetchStage := .settled }

/-! ## The page as a transition system -/

/-- State when the `DOMContentLoaded` listener has returned: the variables hold their
initial values (lines 4-8), `fetchData` has run `showLoading` and is suspended at its
first `await`, and the four listeners are registered. -/
def initialState : State :=
  showLoading
    { allInternships := [], allCompanies := [], currentPage := 1, filteredInternships := []
      searchInput := "", industryFilter := "", marketFilter := ""
      industryOptions := [], tableBody := .spinner, pagination := none
      fetchStage := .awaitingCompanies }

/-- What the browser can deliver to the script. -/
inductive Event where
  /-- the read of `/api/companies` resolves with this array -/
  | companiesArrived (companies : List Company)
  /-- the read of `/api/internships` resolves with this array -/
  | internshipsArrived (internships : List Internship)
  /-- the read that `fetchData` is waiting for rejects -/
  | fetchRejected
  /-- `input` event on `#searchInput` whose value is now `text` -/
  | searchTyped (text : String)
  /-- `change` event on `#industryFilter` whose value is now `value` -/
  | industryChosen (value : String)
  /-- `change` event on `#marketFilter` whose value is now `value` -/
  | marketChosen (value : String)
  /-- `click` on `#resetFilters` -/
  | resetClicked
  /-- `click` on the link of the `k`-th item of the pagination list -/
  | pageLinkClicked (k : Nat)
  deriving DecidableEq, Repr

/-- One turn of the event loop. A completion of a read is taken only at the `await` that
waits for it, and a click needs a link to click on. -/
def step (toLowerCase : String → String) (s : State) : Event → State
  | .companiesArrived companies =>
    if s.fetchStage = .awaitingCompanies then fetchDataCompanies companies s else s
  | .internshipsArrived internships =>
    if s.fetchStage = .awaitingInternships then fetchDataInternships internships s else s
  | .fetchRejected =>
    if s.fetchStage = .settled then s else fetchDataCatch s
  | .searchTyped text => filterInternships toLowerCase { s with searchInput := text }
  | .industryChosen value => filterInternships toLowerCase { s with industryFilter := value }
  | .marketChosen value => filterInternships toLowerCase { s with marketFilter := value }
  | .resetClicked => resetFilters s
  | .pageLinkClicked k =>
    match s.pagination with
    | none => s
    | some control =>
      match control.items[k]? with
      | none => s
      | some item => pageLinkHandler control.totalPages item.dataPage s

/-- Run a sequence of events. -/
def run (toLowerCase : String → String) (s : State) (events : List Event) : State :=
  events.foldl (step toLowerCase) s

/-- States the page can be in. -/
def Reachable (toLowerCase : String → String) (s : State) : Prop :=
  ∃ events, run toLowerCase initialState events = s

/-- Is the event one of the user actions on the filter controls, the reset button
or a pagination link? -/
def Event.isUserAction : Event → Bool
  | .searchTyped _ | .industryChosen _ | .marketChosen _ | .resetClicked | .pageLinkClicked _ => true
  | _ => false

/-- Does the event run `filterInternships` or `resetFilters`? -/
def Event.refilters : Event → Bool
  | .searchTyped _ | .industryChosen _ | .marketChosen _ | .resetClicked => true
  | _ => false

/-! ## Test data -/

/-- An internship of company `1` with the given name and title. -/
def sampleInternship (n : Int) (name title : String) : Internship :=
  { id := .num n, company_id := .num 1, company_name := name, title := title
    start_date := none, end_date := none, target := none, application_url := "#" }

/-- The internships numbered `1` to `n`. -/
def sampleInternships (n : Nat) : List Internship :=
  (List.range' 1 n).map fun i => sampleInternship i "Acme Corp" "Intern"

/-- Two companies with distinct identifiers: an IT company listed on the prime market and a
company without industry and market. -/
def sampleCompanies : List Company :=
  [{ id := .num 1, industry := some "IT", market := some "Prime" },
   { id := .num 2, industry := none, market := none }]

/-- A loaded page: the two sample companies and three internships, the last of which
refers to a company that is not in the list. -/
def sampleState : State :=
  run asciiLower initialState
    [.companiesArrived sampleCompanies,
     .internshipsArrived
       [sampleInternship 1 "Acme Corp" "Intern",
        { sampleInternship 2 "Beta" "Summer job" with company_id := .num 2 },
        { sampleInternship 3 "Gamma" "Acme partner" with company_id := .num 7 }]]

/-- The page after a successful load of the sample companies and 25 internships. -/
def loadedState : State :=
  run asciiLower initialState
    [.companiesArrived sampleCompanies, .internshipsArrived (sampleInternships 25)]

/-! ## The specification's wording -/

/-- The string `search` occurs in `text` as a contiguous substring. -/
def Occurs (text search : String) : Prop :=
  ∃ pre suf : List Char, text.data = pre ++ search.data ++ suf

/-- Spec, "Search match": `search`, compared ignoring letter case, occurs in `text` as a
contiguous substring. Letter case is ignored by comparing the lower-case forms that the
built-in gives. -/
def ContainsIgnoringCase (toLowerCase : String → String) (text search : String) : Prop :=
  Occurs (toLowerCase text) (toLowerCase search)

/-- Spec, "Search match" of an internship: the company display name or the title
contains the search text, ignoring letter case. -/
def SearchMatch (toLowerCase : String → String) (searchText : String)
    (internship : Internship) : Prop :=
  ContainsIgnoringCase toLowerCase internship.company_name searchText ∨
    ContainsIgnoringCase toLowerCase internship.title searchText

/-- Two strings differ in letter case only: the built-in gives both the same lower-case
form. -/
def SameUpToCase (toLowerCase : String → String) (a b : String) : Prop :=
  toLowerCase a = toLowerCase b

/-- Two runs of ASCII characters are the same letter by letter up to case: same length, and
at every position the two characters have the same lower-case form. -/
def EqIgnoringAsciiCase (a b : List Char) : Prop :=
  List.Forall₂ (fun x y => x.toLower = y.toLower) a b

/-- Some contiguous run of `text` is `search` letter by letter up to ASCII case. -/
def ContainsIgnoringAsciiCase (text search : String) : Prop :=
  ∃ pre w suf : List Char, text.data = pre ++ w ++ suf ∧ EqIgnoringAsciiCase w search.data

/-- Spec, "Industry match": no industry is selected, or some company of the full list has
the internship's company identifier and exactly the selected industry. -/
def IndustryMatch (allCompanies : List Company) (selectedIndustry : String)
    (internship : Internship) : Prop :=
  selectedIndustry = "" ∨
    ∃ c ∈ allCompanies, c.id = internship.company_id ∧ c.industry = some selectedIndustry

/-- Spec, "Market match": the same with the market field. -/
def MarketMatch (allCompanies : List Company) (selectedMarket : String)
    (internship : Internship) : Prop :=
  selectedMarket = "" ∨
    ∃ c ∈ allCompanies, c.id = internship.company_id ∧ c.market = some selectedMarket

/-- The state in which `filterInternships` finds the three controls at these values. -/
def withControls (s : State) (searchText selectedIndustry selectedMarket : String) : State :=
  { s with searchInput := searchText, industryFilter := selectedIndustry,
           marketFilter := selectedMarket }

/-- The page of a numbered link. -/
def PageItem.numbered? : PageItem → Option Int
  | .number p _ => some p
  | _ => none

/-- The page of a numbered link that is marked active. -/
def PageItem.active? : PageItem → Option Int
  | .number p true => some p
  | _ => none

/-- The item, when it is one that the `for` loop writes: a numbered link or an ellipsis. -/
def PageItem.loopItem? : PageItem → Option PageItem
  | .number p f => some (.number p f)
  | .ellipsis => some .ellipsis
  | _ => none

/-- The pages of the numbered links of a pagination list, in the order of the list. -/
def numberedPages (items : List PageItem) : List Int := items.filterMap PageItem.numbered?

/-- The pages of the numbered links marked active, in the order of the list. -/
def activePages (items : List PageItem) : List Int := items.filterMap PageItem.active?

/-- Spec, section 9: an unlabeled gap. Two numbered links that follow one another among the
numbered links (`mid` holds no numbered link), whose pages differ by more than 1, with no
ellipsis item between them. -/
def UnlabeledGap (items : List PageItem) : Prop :=
  ∃ (pre mid post : List PageItem) (a b : Int) (fa fb : Bool),
    items = pre ++ [.number a fa] ++ mid ++ [.number b fb] ++ post ∧
    (∀ x ∈ mid, x.numbered? = none) ∧
    PageItem.ellipsis ∉ mid ∧
    (1 < b - a ∨ 1 < a - b)

/-- What the page shows after a failed load: nothing is loaded, there is no pagination
link, and the table body holds the failure row until `filterInternships` or `resetFilters`
has run (`refiltered`), and the "nothing matches" row afterwards. -/
structure FailedDisplay (s : State) (refiltered : Bool) : Prop where
  settled : s.fetchStage = .settled
  noInternships : s.allInternships = []
  noFiltered : s.filteredInternships = []
  noLinks : s.pagination = none
  body : s.tableBody = if refiltered then .noMatch else .loadFailure

/-- Position in the company list of the first company whose industry is `v`; the length of
the list when there is none. -/
def firstOccurrence (allCompanies : List Company) (v : String) : Nat :=
  allCompanies.findIdx fun c => decide (c.industry = some v)

/-- The module variables of a state: the two full lists, the filtered list, the page. -/
def State.vars (s : State) : List Internship × List Company × List Internship × Int :=
  (s.allInternships, s.allCompanies, s.filteredInternships, s.currentPage)

/-- Invariant of the reachable states. -/
structure Inv (s : State) : Prop where
  /-- the filtered list is a subsequence of the full list -/
  sublist : s.filteredInternships.Sublist s.allInternships
  /-- the page is at least 1 -/
  one_le : 1 ≤ s.currentPage
  /-- the page is at most the number of pages, or 1 when there is no page -/
  le_pages : s.currentPage ≤ max 1 (ceilPages s.filteredInternships.length : Int)
  /-- the links on the page were rendered from the present filtered list and page -/
  links : ∀ control, s.pagination = some control →
    control.totalPages = ceilPages s.filteredInternships.length ∧
      control.items = paginationItems s.currentPage control.totalPages ∧
      2 ≤ control.totalPages
  /-- nothing is loaded while `fetchData` is suspended -/
  pending : s.fetchStage ≠ .settled → s.allInternships = []

/-! ## Theorems -/

variable {toLowerCase : String → String}

/-! ### Built-ins -/

theorem includes_iff_occurs (s search : String) :
    includes s search = true ↔ Occurs s search := by
  unfold includes Occurs
  rw [List.any_eq_true]
  constructor
  · rintro ⟨t, ht, hp⟩
    obtain ⟨pre, hpre⟩ := (List.mem_tails _ _).mp ht
    obtain ⟨suf, hsuf⟩ := List.isPrefixOf_iff_prefix.mp hp
    exact ⟨pre, suf, by rw [← hpre, ← hsuf, List.append_assoc]⟩
  · rintro ⟨pre, suf, h⟩
    refine ⟨search.data ++ suf, (List.mem_tails _ _).mpr ⟨pre, ?_⟩,
      List.isPrefixOf_iff_prefix.mpr ⟨suf, rfl⟩⟩
    rw [h, List.append_assoc]

theorem map_eq_map_iff_forall₂ {α β : Type} (f : α → β) (a b : List α) :
    a.map f = b.map f ↔ List.Forall₂ (fun x y => f x = f y) a b := by
  induction a generalizing b with
  | nil => cases b <;> simp
  | cons x a ih => cases b <;> simp [ih]

theorem occurs_asciiLower_iff (text search : String) :
    Occurs (asciiLower text) (asciiLower search) ↔ ContainsIgnoringAsciiCase text search := by
  unfold Occurs ContainsIgnoringAsciiCase EqIgnoringAsciiCase asciiLower
  simp only
  constructor
  · rintro ⟨p, q, h⟩
    obtain ⟨l₁, suf, h₁, h₂, h₃⟩ := List.map_eq_append_iff.mp h
    obtain ⟨pre, w, h₄, h₅, h₆⟩ := List.map_eq_append_iff.mp h₂
    refine ⟨pre, w, suf, by rw [h₁, h₄], ?_⟩
    exact (map_eq_map_iff_forall₂ _ _ _).mp h₆
  · rintro ⟨pre, w, suf, h, hw⟩
    refine ⟨pre.map Char.toLower, suf.map Char.toLower, ?_⟩
    rw [h, List.map_append, List.map_append, (map_eq_map_iff_forall₂ _ _ _).mpr hw]

theorem asciiLower_eq_of_eqIgnoringAsciiCase {a b : String}
    (h : EqIgnoringAsciiCase a.data b.data) : asciiLower a = asciiLower b := by
  unfold asciiLower
  rw [(map_eq_map_iff_forall₂ _ _ _).mpr h]

theorem lowersAscii_asciiLower : LowersAscii asciiLower := fun _ _ => rfl

theorem lowersAscii_empty (hascii : LowersAscii toLowerCase) : toLowerCase "" = "" := by
  rw [hascii "" (by intro c hc; cases hc)]
  rfl

theorem truthy_iff (v : String) : truthy v = true ↔ v ≠ "" := by
  simp [truthy]

theorem matchesSearch_iff (searchText : String) (i : Internship) :
    matchesSearch toLowerCase (toLowerCase searchText) i = true ↔
      SearchMatch toLowerCase searchText i := by
  simp [matchesSearch, SearchMatch, ContainsIgnoringCase, includes_iff_occurs]

theorem matchesSearch_ascii (hascii : LowersAscii toLowerCase) {searchText : String}
    {i : Internship} (ht : IsAscii searchText) (hn : IsAscii i.company_name)
    (htt : IsAscii i.title) :
    matchesSearch toLowerCase (toLowerCase searchText) i
      = matchesSearch asciiLower (asciiLower searchText) i := by
  unfold matchesSearch
  rw [hascii _ ht, hascii _ hn, hascii _ htt]

/-! ### Rendering leaves the variables alone -/

theorem renderPagination_vars (s : State) :
    (renderPagination s).allInternships = s.allInternships ∧
    (renderPagination s).allCompanies = s.allCompanies ∧
    (renderPagination s).filteredInternships = s.filteredInternships ∧
    (renderPagination s).currentPage = s.currentPage ∧
    (renderPagination s).fetchStage = s.fetchStage ∧
    (renderPagination s).tableBody = s.tableBody := by
  unfold renderPagination
  dsimp only
  split <;> simp

theorem renderInternships_vars (s : State) :
    (renderInternships s).allInternships = s.allInternships ∧
    (renderInternships s).allCompanies = s.allCompanies ∧
    (renderInternships s).filteredInternships = s.filteredInternships ∧
    (renderInternships s).currentPage = s.currentPage ∧
    (renderInternships s).fetchStage = s.fetchStage := by
  unfold renderInternships
  dsimp only
  split
  · simp
  · obtain ⟨h₁, h₂, h₃, h₄, h₅, _⟩ :=
      renderPagination_vars { s with tableBody := .rows (currentInternships s.filteredInternships s.currentPage) }
    exact ⟨h₁, h₂, h₃, h₄, h₅⟩

theorem filterInternships_filtered (s : State) :
    (filterInternships toLowerCase s).filteredInternships =
      s.allInternships.filter fun internship =>
        matchesSearch toLowerCase (toLowerCase s.searchInput) internship &&
          matchesIndustry s.allCompanies s.industryFilter internship &&
          matchesMarket s.allCompanies s.marketFilter internship := by
  unfold filterInternships
  exact (renderInternships_vars _).2.2.1

/-! ### The company lookup -/

theorem find?_id_unique {cs : List Company} (hid : (cs.map Company.id).Nodup)
    {c : Company} (hc : c ∈ cs) :
    cs.find? (fun d => d.id == c.id) = some c := by
  induction cs with
  | nil => cases hc
  | cons d cs ih =>
    rw [List.map_cons, List.nodup_cons] at hid
    rcases List.mem_cons.mp hc with rfl | hc
    · simp [List.find?_cons]
    · have hne : d.id ≠ c.id := fun h => hid.1 (h ▸ List.mem_map_of_mem _ hc)
      rw [List.find?_cons]
      have : (d.id == c.id) = false := by simpa using hne
      rw [this]
      exact ih hid.2 hc

theorem find?_id_mem {cs : List Company} {k : JsKey} {c : Company}
    (h : cs.find? (fun d => d.id == k) = some c) : c ∈ cs ∧ c.id = k := by
  refine ⟨List.mem_of_find?_eq_some h, ?_⟩
  simpa using List.find?_some h

theorem matchesIndustry_iff {cs : List Company} (hid : (cs.map Company.id).Nodup)
    (sel : String) (i : Internship) :
    matchesIndustry cs sel i = true ↔ IndustryMatch cs sel i := by
  unfold matchesIndustry IndustryMatch
  by_cases hs : sel = ""
  · subst hs; simp [truthy]
  · rw [if_pos ((truthy_iff sel).mpr hs)]
    constructor
    · intro h
      right
      split at h
      · next company hf =>
        obtain ⟨hm, hk⟩ := find?_id_mem hf
        exact ⟨company, hm, hk, by simpa using h⟩
      · cases h
    · rintro (h | ⟨c, hc, hk, hind⟩)
      · exact absurd h hs
      · rw [← hk, find?_id_unique hid hc]
        simpa using hind

theorem matchesMarket_iff {cs : List Company} (hid : (cs.map Company.id).Nodup)
    (sel : String) (i : Internship) :
    matchesMarket cs sel i = true ↔ MarketMatch cs sel i := by
  unfold matchesMarket MarketMatch
  by_cases hs : sel = ""
  · subst hs; simp [truthy]
  · rw [if_pos ((truthy_iff sel).mpr hs)]
    constructor
    · intro h
      right
      split at h
      · next company hf =>
        obtain ⟨hm, hk⟩ := find?_id_mem hf
        exact ⟨company, hm, hk, by simpa using h⟩
      · cases h
    · rintro (h | ⟨c, hc, hk, hind⟩)
      · exact absurd h hs
      · rw [← hk, find?_id_unique hid hc]
        simpa using hind

/-! ### C1 and C2: the filter -/

/-- C1: when the company identifiers are pairwise distinct, `filterInternships` keeps exactly
the internships of the full list for which the search matches, the industry matches (none
selected, or some company with the internship's `company_id` has the selected industry) and
the market matches likewise. An internship whose `company_id` is the id of no company is
dropped as soon as an industry or a market is selected, and kept when neither is selected and
the search matches. This holds whatever function the built-in `toLowerCase` is. -/
theorem filterInternships_keeps_exactly (toLowerCase : String → String) (s : State)
    (searchText selectedIndustry selectedMarket : String)
    (hid : (s.allCompanies.map Company.id).Nodup) :
    (∃ keep : Internship → Bool,
      (∀ i, keep i = true ↔
        SearchMatch toLowerCase searchText i ∧
          IndustryMatch s.allCompanies selectedIndustry i ∧
          MarketMatch s.allCompanies selectedMarket i) ∧
      (filterInternships toLowerCase
          (withControls s searchText selectedIndustry selectedMarket)).filteredInternships
        = s.allInternships.filter keep) ∧
    (∀ i ∈ s.allInternships, (∀ c ∈ s.allCompanies, c.id ≠ i.company_id) →
      ((selectedIndustry ≠ "" ∨ selectedMarket ≠ "") →
        i ∉ (filterInternships toLowerCase
              (withControls s searchText selectedIndustry selectedMarket)).filteredInternships) ∧
      (selectedIndustry = "" → selectedMarket = "" → SearchMatch toLowerCase searchText i →
        i ∈ (filterInternships toLowerCase
              (withControls s searchText selectedIndustry selectedMarket)).filteredInternships)) := by
  have hkeep : ∀ i : Internship,
      (matchesSearch toLowerCase (toLowerCase searchText) i &&
        matchesIndustry s.allCompanies selectedIndustry i &&
        matchesMarket s.allCompanies selectedMarket i) = true ↔
      SearchMatch toLowerCase searchText i ∧ IndustryMatch s.allCompanies selectedIndustry i ∧
        MarketMatch s.allCompanies selectedMarket i := by
    intro i
    rw [Bool.and_eq_true, Bool.and_eq_true, matchesSearch_iff, matchesIndustry_iff hid,
      matchesMarket_iff hid, and_assoc]
  have hf := @filterInternships_filtered toLowerCase
    (withControls s searchText selectedIndustry selectedMarket)
  simp only [withControls] at hf ⊢
  refine ⟨⟨_, hkeep, hf⟩, ?_⟩
  intro i hi hno
  rw [hf, List.mem_filter, hkeep]
  constructor
  · rintro hsel ⟨-, -, hI, hM⟩
    rcases hsel with hsel | hsel
    · rcases hI with h | ⟨c, hc, hk, -⟩
      · exact hsel h
      · exact hno c hc hk
    · rcases hM with h | ⟨c, hc, hk, -⟩
      · exact hsel h
      · exact hno c hc hk
  · intro h₁ h₂ hs
    exact ⟨hi, hs, Or.inl h₁, Or.inl h₂⟩

theorem filterInternships_keeps_exactly_witness :
    (sampleState.allCompanies.map Company.id).Nodup ∧
    (∃ keep : Internship → Bool,
      (∀ i, keep i = true ↔
        SearchMatch asciiLower "acme" i ∧ IndustryMatch sampleState.allCompanies "IT" i ∧
          MarketMatch sampleState.allCompanies "" i) ∧
      (filterInternships asciiLower
          (withControls sampleState "acme" "IT" "")).filteredInternships
        = sampleState.allInternships.filter keep) ∧
    (∀ i ∈ sampleState.allInternships, (∀ c ∈ sampleState.allCompanies, c.id ≠ i.company_id) →
      (("IT" ≠ "" ∨ "" ≠ "") →
        i ∉ (filterInternships asciiLower
              (withControls sampleState "acme" "IT" "")).filteredInternships) ∧
      ("IT" = "" → "" = "" → SearchMatch asciiLower "acme" i →
        i ∈ (filterInternships asciiLower
              (withControls sampleState "acme" "IT" "")).filteredInternships)) :=
  ⟨by decide, filterInternships_keeps_exactly asciiLower sampleState "acme" "IT" "" (by decide)⟩

theorem isAscii_sample : IsAscii "Acme Corp" ∧ IsAscii "Intern" ∧ IsAscii "acme" ∧
    IsAscii "ACME" ∧ IsAscii "Corp" ∧ IsAscii "xyz" := by
  unfold IsAscii
  decide

/-- C2: with no industry and no market selected, `filterInternships` keeps exactly the
internships whose company name or title contains the search text as a contiguous substring,
letter case ignored, that is, compared in the lower-case forms the built-in gives. Changing
only the letter case of the search text, or of the name and title, changes nothing; the empty
search text keeps everything. On ASCII strings the comparison is letter by letter up to
case; "Acme Corp" is kept for "acme", "ACME" and "Corp" and dropped for "xyz". -/
theorem search_is_case_insensitive_containment (toLowerCase : String → String)
    (hascii : LowersAscii toLowerCase) :
    (∀ (s : State) (searchText : String),
      ∃ keep : Internship → Bool,
        (∀ i, keep i = true ↔
          ContainsIgnoringCase toLowerCase i.company_name searchText ∨
            ContainsIgnoringCase toLowerCase i.title searchText) ∧
        (filterInternships toLowerCase (withControls s searchText "" "")).filteredInternships
          = s.allInternships.filter keep) ∧
    (∀ (s : State) (searchText searchText' selectedIndustry selectedMarket : String),
      SameUpToCase toLowerCase searchText searchText' →
        (filterInternships toLowerCase
            (withControls s searchText selectedIndustry selectedMarket)).filteredInternships
          = (filterInternships toLowerCase
            (withControls s searchText' selectedIndustry selectedMarket)).filteredInternships) ∧
    (∀ (searchTerm : String) (i i' : Internship),
      SameUpToCase toLowerCase i.company_name i'.company_name →
        SameUpToCase toLowerCase i.title i'.title →
          matchesSearch toLowerCase searchTerm i = matchesSearch toLowerCase searchTerm i') ∧
    (∀ s : State,
      (filterInternships toLowerCase (withControls s "" "" "")).filteredInternships
        = s.allInternships) ∧
    (∀ text search : String, IsAscii text → IsAscii search →
      (ContainsIgnoringCase toLowerCase text search ↔
        ContainsIgnoringAsciiCase text search)) ∧
    (∀ a b : String, IsAscii a → IsAscii b → EqIgnoringAsciiCase a.data b.data →
      SameUpToCase toLowerCase a b) ∧
    (∀ s : State,
      (filterInternships toLowerCase (withControls { s with allInternships :=
          [sampleInternship 1 "Acme Corp" "Intern"] } "acme" "" "")).filteredInternships
        = [sampleInternship 1 "Acme Corp" "Intern"] ∧
      (filterInternships toLowerCase (withControls { s with allInternships :=
          [sampleInternship 1 "Acme Corp" "Intern"] } "ACME" "" "")).filteredInternships
        = [sampleInternship 1 "Acme Corp" "Intern"] ∧
      (filterInternships toLowerCase (withControls { s with allInternships :=
          [sampleInternship 1 "Acme Corp" "Intern"] } "Corp" "" "")).filteredInternships
        = [sampleInternship 1 "Acme Corp" "Intern"] ∧
      (filterInternships toLowerCase (withControls { s with allInternships :=
          [sampleInternship 1 "Acme Corp" "Intern"] } "xyz" "" "")).filteredInternships
        = []) := by
  have hnone : ∀ (cs : List Company) (i : Internship),
      matchesIndustry cs "" i = true ∧ matchesMarket cs "" i = true := by
    intro cs i
    simp [matchesIndustry, matchesMarket, truthy]
  obtain ⟨hA, hI, ha, hU, hC, hx⟩ := isAscii_sample
  refine ⟨?_, ?_, ?_, ?_, ?_, ?_, ?_⟩
  · intro s searchText
    refine ⟨fun i => matchesSearch toLowerCase (toLowerCase searchText) i,
      fun i => matchesSearch_iff _ i, ?_⟩
    rw [filterInternships_filtered]
    simp only [withControls]
    apply List.filter_congr
    intro i _
    rw [(hnone s.allCompanies i).1, (hnone s.allCompanies i).2, Bool.and_true, Bool.and_true]
  · intro s t t' ind mkt h
    rw [filterInternships_filtered, filterInternships_filtered]
    simp only [withControls]
    rw [show toLowerCase t = toLowerCase t' from h]
  · intro t i i' hn ht
    unfold matchesSearch
    rw [show toLowerCase i.company_name = toLowerCase i'.company_name from hn,
      show toLowerCase i.title = toLowerCase i'.title from ht]
  · intro s
    rw [filterInternships_filtered]
    simp only [withControls]
    rw [List.filter_eq_self]
    intro i _
    have hs : matchesSearch toLowerCase (toLowerCase "") i = true := by
      rw [matchesSearch_iff]
      refine Or.inl ⟨[], (toLowerCase i.company_name).data, ?_⟩
      rw [lowersAscii_empty hascii]
      rfl
    rw [hs, (hnone s.allCompanies i).1, (hnone s.allCompanies i).2]
    rfl
  · intro text search ht hs
    unfold ContainsIgnoringCase
    rw [hascii _ ht, hascii _ hs]
    exact occurs_asciiLower_iff text search
  · intro a b hA' hB' h
    unfold SameUpToCase
    rw [hascii _ hA', hascii _ hB']
    exact asciiLower_eq_of_eqIgnoringAsciiCase h
  · intro s
    simp only [filterInternships_filtered, withControls]
    refine ⟨?_, ?_, ?_, ?_⟩
    · have h : matchesSearch toLowerCase (toLowerCase "acme")
          (sampleInternship 1 "Acme Corp" "Intern") = true := by
        rw [matchesSearch_ascii hascii ha hA hI]; decide
      simp [List.filter_cons, h, (hnone s.allCompanies _).1, (hnone s.allCompanies _).2]
    · have h : matchesSearch toLowerCase (toLowerCase "ACME")
          (sampleInternship 1 "Acme Corp" "Intern") = true := by
        rw [matchesSearch_ascii hascii hU hA hI]; decide
      simp [List.filter_cons, h, (hnone s.allCompanies _).1, (hnone s.allCompanies _).2]
    · have h : matchesSearch toLowerCase (toLowerCase "Corp")
          (sampleInternship 1 "Acme Corp" "Intern") = true := by
        rw [matchesSearch_ascii hascii hC hA hI]; decide
      simp [List.filter_cons, h, (hnone s.allCompanies _).1, (hnone s.allCompanies _).2]
    · have h : matchesSearch toLowerCase (toLowerCase "xyz")
          (sampleInternship 1 "Acme Corp" "Intern") = false := by
        rw [matchesSearch_ascii hascii hx hA hI]; decide
      simp [List.filter_cons, h]

theorem search_is_case_insensitive_containment_witness :
    LowersAscii asciiLower ∧ SameUpToCase asciiLower "acme" "ACME" ∧
      (filterInternships asciiLower (withControls sampleState "acme" "" "")).filteredInternships
        = (filterInternships asciiLower
            (withControls sampleState "ACME" "" "")).filteredInternships :=
  ⟨lowersAscii_asciiLower, by unfold SameUpToCase; decide,
   (search_is_case_insensitive_containment asciiLower lowersAscii_asciiLower).2.1
     sampleState "acme" "ACME" "" "" (by unfold SameUpToCase; decide)⟩

/-! ### Pages of a list -/

theorem ceilPages_mul_ge (n : Nat) : n ≤ ceilPages n * itemsPerPage := by
  unfold ceilPages itemsPerPage
  omega

theorem ceilPages_pos {n : Nat} (h : 0 < n) : 1 ≤ ceilPages n := by
  unfold ceilPages itemsPerPage
  omega

theorem lt_of_lt_ceilPages {n q : Nat} (h : q < ceilPages n) : q * itemsPerPage < n := by
  unfold ceilPages itemsPerPage at *
  omega

theorem ceilPages_eq_ceil (n : Nat) : ceilPages n = ⌈(n : ℚ) / 10⌉₊ := by
  apply le_antisymm
  · rcases Nat.eq_zero_or_pos (ceilPages n) with h | h
    · rw [h]; exact Nat.zero_le _
    · have hlt : ceilPages n - 1 < ⌈(n : ℚ) / 10⌉₊ := by
        rw [Nat.lt_ceil, lt_div_iff₀ (by norm_num)]
        have : (ceilPages n - 1) * 10 < n := by
          unfold ceilPages itemsPerPage at *
          omega
        exact_mod_cast this
      omega
  · rw [Nat.ceil_le, div_le_iff₀ (by norm_num)]
    have := ceilPages_mul_ge n
    unfold itemsPerPage at this
    exact_mod_cast this

theorem relativeIndex_natCast (len k : Nat) : relativeIndex len (k : Int) = min k len := by
  unfold relativeIndex
  rw [if_neg (by omega)]
  simp

theorem currentInternships_succ {α : Type} (xs : List α) (q : Nat) :
    currentInternships xs ((q : Int) + 1) = (xs.drop (q * itemsPerPage)).take itemsPerPage := by
  unfold currentInternships slice itemsPerPage
  have h₁ : ((q : Int) + 1 - 1) * ((10 : Nat) : Int) = ((q * 10 : Nat) : Int) := by
    push_cast; ring
  have h₂ : min (((q * 10 : Nat) : Int) + ((10 : Nat) : Int)) (xs.length : Int)
      = ((min (q * 10 + 10) xs.length : Nat) : Int) := by
    push_cast; rfl
  simp only [h₁, h₂, relativeIndex_natCast]
  apply List.ext_getElem?
  intro m
  rw [List.getElem?_take, List.getElem?_take, List.getElem?_drop, List.getElem?_drop]
  by_cases hq : q * 10 ≤ xs.length
  · rw [min_eq_left hq]
    by_cases hm : m < min (min (q * 10 + 10) xs.length) xs.length - q * 10
    · rw [if_pos hm, if_pos (by omega)]
    · rw [if_neg hm]
      split
      · rw [eq_comm, List.getElem?_eq_none_iff]; omega
      · rfl
  · rw [if_neg (by omega)]
    split
    · rw [eq_comm, List.getElem?_eq_none_iff]; omega
    · rfl

theorem currentInternships_of_pos {α : Type} (xs : List α) {p : Int} (hp : 1 ≤ p) :
    currentInternships xs p
      = (xs.drop ((p - 1).toNat * itemsPerPage)).take itemsPerPage := by
  have h : p = (((p - 1).toNat : Nat) : Int) + 1 := by omega
  rw [← currentInternships_succ, ← h]

theorem flatten_chunks {α : Type} (m : Nat) :
    ∀ xs : List α, xs.length ≤ m * itemsPerPage →
      ((List.range m).map fun q => (xs.drop (q * itemsPerPage)).take itemsPerPage).flatten
        = xs := by
  induction m with
  | zero =>
    intro xs h
    have : xs = [] := List.length_eq_zero.mp (by omega)
    simp [this]
  | succ m ih =>
    intro xs h
    rw [List.range_succ_eq_map, List.map_cons, List.flatten_cons, List.map_map]
    have hd : (xs.drop itemsPerPage).length ≤ m * itemsPerPage := by
      rw [List.length_drop]
      have : (m + 1) * itemsPerPage = m * itemsPerPage + itemsPerPage := by ring
      omega
    have hfun : ((fun q => (xs.drop (q * itemsPerPage)).take itemsPerPage) ∘ Nat.succ)
        = fun q => ((xs.drop itemsPerPage).drop (q * itemsPerPage)).take itemsPerPage := by
      funext q
      simp only [Function.comp, List.drop_drop]
      congr 2
      rw [Nat.succ_mul]; omega
    rw [hfun, ih _ hd]
    simp

/-! ### C5: the page slice -/

/-- C5: for a filtered list of `n ≥ 1` items and a page `p` with `1 ≤ p ≤ ceil(n / 10)`, the
items shown are those at the zero-based positions from `(p-1)*10` up to, not including,
`min((p-1)*10 + 10, n)`; the slice is not empty, has at most 10 items, exactly 10 on every
page but the last, and the slices of the pages `1 .. ceil(n/10)` in order make up the list. -/
theorem page_slice_positions (xs : List Internship) (p : Nat)
    (_hn : 1 ≤ xs.length) (hp₁ : 1 ≤ p) (hp₂ : p ≤ ceilPages xs.length) :
    (∀ s : State, s.filteredInternships = xs → s.currentPage = (p : Int) →
      (renderInternships s).tableBody = .rows (currentInternships xs (p : Int))) ∧
    ceilPages xs.length = ⌈(xs.length : ℚ) / 10⌉₊ ∧
    (currentInternships xs (p : Int)).length
      = min ((p - 1) * 10 + 10) xs.length - (p - 1) * 10 ∧
    (∀ k, k < min ((p - 1) * 10 + 10) xs.length - (p - 1) * 10 →
      (currentInternships xs (p : Int))[k]? = xs[(p - 1) * 10 + k]?) ∧
    currentInternships xs (p : Int) ≠ [] ∧
    (currentInternships xs (p : Int)).length ≤ 10 ∧
    (p < ceilPages xs.length → (currentInternships xs (p : Int)).length = 10) ∧
    ((List.range' 1 (ceilPages xs.length)).map
      fun q : Nat => currentInternships xs (q : Int)).flatten = xs := by
  obtain ⟨q, rfl⟩ : ∃ q, p = q + 1 := ⟨p - 1, by omega⟩
  have hq : q * 10 < xs.length := by
    have := lt_of_lt_ceilPages (Nat.lt_of_succ_le hp₂)
    simpa [itemsPerPage] using this
  have hcur : currentInternships xs ((q + 1 : Nat) : Int) = (xs.drop (q * 10)).take 10 := by
    rw [Nat.cast_succ, currentInternships_succ]; rfl
  have hlen : (currentInternships xs ((q + 1 : Nat) : Int)).length
      = min ((q + 1 - 1) * 10 + 10) xs.length - (q + 1 - 1) * 10 := by
    rw [hcur, List.length_take, List.length_drop, Nat.add_sub_cancel]
    omega
  have hne : currentInternships xs ((q + 1 : Nat) : Int) ≠ [] := by
    intro h
    rw [h, Nat.add_sub_cancel] at hlen
    simp only [List.length_nil] at hlen
    omega
  refine ⟨?_, ceilPages_eq_ceil _, hlen, ?_, hne, ?_, ?_, ?_⟩
  · intro s hs hpg
    unfold renderInternships
    dsimp only
    rw [hs, hpg, if_neg (fun h => hne (List.length_eq_zero.mp h))]
    exact (renderPagination_vars _).2.2.2.2.2
  · intro k hk
    rw [Nat.add_sub_cancel] at hk ⊢
    rw [hcur, List.getElem?_take, List.getElem?_drop, if_pos (by omega)]
  · rw [hlen, Nat.add_sub_cancel]; omega
  · intro hlt
    have := lt_of_lt_ceilPages hlt
    simp only [itemsPerPage] at this
    rw [hlen, Nat.add_sub_cancel]; omega
  · rw [List.range'_eq_map_range, List.map_map]
    have hfun : ((fun q : Nat => currentInternships xs (q : Int)) ∘ fun x => 1 + x)
        = fun q => (xs.drop (q * itemsPerPage)).take itemsPerPage := by
      funext r
      simp only [Function.comp]
      rw [← currentInternships_succ]
      congr 1
      push_cast; ring
    rw [hfun]
    exact flatten_chunks _ xs (ceilPages_mul_ge _)

theorem page_slice_positions_witness :
    1 ≤ (sampleInternships 25).length ∧ 1 ≤ 3 ∧ 3 ≤ ceilPages (sampleInternships 25).length ∧
    ceilPages (sampleInternships 25).length = 3 ∧
    currentInternships (sampleInternships 25) 1 = (sampleInternships 25).take 10 ∧
    currentInternships (sampleInternships 25) 2 = ((sampleInternships 25).drop 10).take 10 ∧
    currentInternships (sampleInternships 25) 3 = (sampleInternships 25).drop 20 ∧
    (currentInternships (sampleInternships 25) ((3 : Nat) : Int)).length
      = min ((3 - 1) * 10 + 10) (sampleInternships 25).length - (3 - 1) * 10 ∧
    (currentInternships (sampleInternships 25) ((3 : Nat) : Int)).length = 5 ∧
    ((List.range' 1 (ceilPages (sampleInternships 25).length)).map
      fun q : Nat => currentInternships (sampleInternships 25) (q : Int)).flatten
        = sampleInternships 25 :=
  have h := page_slice_positions (sampleInternships 25) 3 (by decide) (by decide) (by decide)
  ⟨by decide, by decide, by decide, by decide, by decide, by decide, by decide,
    h.2.2.1, by decide, h.2.2.2.2.2.2.2⟩

/-! ### The invariant -/

theorem renderPagination_links (s : State) (control : Pagination)
    (h : (renderPagination s).pagination = some control) :
    control.totalPages = ceilPages s.filteredInternships.length ∧
      control.items = paginationItems s.currentPage control.totalPages ∧
      2 ≤ control.totalPages := by
  unfold renderPagination at h
  dsimp only at h
  split at h
  · cases h
  · next hT =>
    simp only [Option.some.injEq] at h
    subst h
    exact ⟨rfl, rfl, by show 2 ≤ ceilPages s.filteredInternships.length; omega⟩

theorem renderInternships_links (s : State) (control : Pagination)
    (h : (renderInternships s).pagination = some control) :
    control.totalPages = ceilPages s.filteredInternships.length ∧
      control.items = paginationItems s.currentPage control.totalPages ∧
      2 ≤ control.totalPages := by
  unfold renderInternships at h
  dsimp only at h
  split at h
  · cases h
  · exact renderPagination_links
      { s with tableBody := .rows (currentInternships s.filteredInternships s.currentPage) }
      control h

theorem inv_renderInternships {s : State}
    (h₁ : s.filteredInternships.Sublist s.allInternships)
    (h₂ : 1 ≤ s.currentPage)
    (h₃ : s.currentPage ≤ max 1 (ceilPages s.filteredInternships.length : Int))
    (h₄ : s.fetchStage ≠ .settled → s.allInternships = []) :
    Inv (renderInternships s) := by
  obtain ⟨e₁, -, e₃, e₄, e₅⟩ := renderInternships_vars s
  refine ⟨?_, ?_, ?_, ?_, ?_⟩
  · rw [e₁, e₃]; exact h₁
  · rw [e₄]; exact h₂
  · rw [e₃, e₄]; exact h₃
  · intro control hc
    rw [e₃, e₄]
    exact renderInternships_links s control hc
  · rw [e₁, e₅]; exact h₄

theorem inv_initialState : Inv initialState := by
  refine ⟨?_, ?_, ?_, ?_, ?_⟩ <;> simp [initialState, showLoading, ceilPages]

theorem inv_filterInternships {s : State} (h : Inv s) : Inv (filterInternships toLowerCase s) := by
  unfold filterInternships
  apply inv_renderInternships
  · exact List.filter_sublist _
  · exact le_refl _
  · exact le_max_left _ _
  · exact h.pending

theorem inv_resetFilters {s : State} (h : Inv s) : Inv (resetFilters s) := by
  unfold resetFilters
  apply inv_renderInternships
  · exact List.Sublist.refl _
  · exact le_refl _
  · exact le_max_left _ _
  · exact h.pending

theorem inv_fetchDataCompanies {s : State} (h : Inv s) (cs : List Company)
    (hs : s.fetchStage = .awaitingCompanies) : Inv (fetchDataCompanies cs s) := by
  have hp := h.pending (by rw [hs]; decide)
  exact ⟨h.sublist, h.one_le, h.le_pages, h.links, fun _ => hp⟩

theorem inv_fetchDataInternships {s : State} (h : Inv s) (is : List Internship)
    (hs : s.fetchStage = .awaitingInternships) : Inv (fetchDataInternships is s) := by
  have hp := h.pending (by rw [hs]; decide)
  have hf : s.filteredInternships = [] := by
    have := h.sublist
    rw [hp] at this
    exact List.sublist_nil.mp this
  have hc : s.currentPage = 1 := by
    have h₁ := h.one_le
    have h₂ := h.le_pages
    rw [hf] at h₂
    simp [ceilPages, itemsPerPage] at h₂
    omega
  unfold fetchDataInternships populateIndustryFilter
  apply inv_renderInternships
  · exact List.Sublist.refl _
  · exact h.one_le
  · show s.currentPage ≤ _
    rw [hc]; exact le_max_left _ _
  · intro hne; exact absurd rfl hne

theorem inv_fetchDataCatch {s : State} (h : Inv s) : Inv (fetchDataCatch s) :=
  ⟨h.sublist, h.one_le, h.le_pages, h.links, fun hne => absurd rfl hne⟩

theorem inv_pageLinkHandler {s : State} (h : Inv s) (control : Pagination)
    (hc : s.pagination = some control) (page : Option Int) :
    Inv (pageLinkHandler control.totalPages page s) := by
  unfold pageLinkHandler
  cases page with
  | none => exact h
  | some page =>
    dsimp only
    split
    · next hg =>
      apply inv_renderInternships
      · exact h.sublist
      · show 1 ≤ page
        omega
      · show page ≤ _
        rw [← (h.links control hc).1]
        exact le_trans hg.2.2.2 (le_max_right _ _)
      · exact h.pending
    · exact h

theorem inv_step {s : State} (h : Inv s) (e : Event) : Inv (step toLowerCase s e) := by
  cases e with
  | companiesArrived cs =>
    simp only [step]
    split
    · next hs => exact inv_fetchDataCompanies h cs hs
    · exact h
  | internshipsArrived is =>
    simp only [step]
    split
    · next hs => exact inv_fetchDataInternships h is hs
    · exact h
  | fetchRejected =>
    simp only [step]
    split
    · exact h
    · exact inv_fetchDataCatch h
  | searchTyped text =>
    exact inv_filterInternships
      (s := { s with searchInput := text }) ⟨h.sublist, h.one_le, h.le_pages, h.links, h.pending⟩
  | industryChosen v =>
    exact inv_filterInternships
      (s := { s with industryFilter := v }) ⟨h.sublist, h.one_le, h.le_pages, h.links, h.pending⟩
  | marketChosen v =>
    exact inv_filterInternships
      (s := { s with marketFilter := v }) ⟨h.sublist, h.one_le, h.le_pages, h.links, h.pending⟩
  | resetClicked => exact inv_resetFilters h
  | pageLinkClicked k =>
    simp only [step]
    split
    · exact h
    · next control hc =>
      split
      · exact h
      · exact inv_pageLinkHandler h control hc _

theorem inv_run {s : State} (h : Inv s) (events : List Event) : Inv (run toLowerCase s events) := by
  induction events generalizing s with
  | nil => exact h
  | cons e es ih => exact ih (inv_step h e)

theorem inv_of_reachable {s : State} (h : Reachable toLowerCase s) : Inv s := by
  obtain ⟨events, rfl⟩ := h
  exact inv_run inv_initialState events

theorem currentInternships_ne_nil {α : Type} (xs : List α) {p : Int} (h₁ : 1 ≤ p)
    (h₂ : p ≤ (ceilPages xs.length : Int)) : currentInternships xs p ≠ [] := by
  rw [currentInternships_of_pos xs h₁]
  have hq : (p - 1).toNat < ceilPages xs.length := by omega
  have := lt_of_lt_ceilPages hq
  intro h
  have hl := congrArg List.length h
  rw [List.length_take, List.length_drop] at hl
  simp only [itemsPerPage, List.length_nil] at hl this
  omega

/-! ### C3, C4, C6: reachable states -/

theorem reachable_run {s : State} (h : Reachable toLowerCase s) (events : List Event) :
    Reachable toLowerCase (run toLowerCase s events) := by
  obtain ⟨pre, rfl⟩ := h
  exact ⟨pre ++ events, by simp [run, List.foldl_append]⟩

theorem reachable_sampleState : Reachable asciiLower sampleState := ⟨_, rfl⟩

theorem reachable_loadedState : Reachable asciiLower loadedState := ⟨_, rfl⟩

/-- C3: in every reachable state the filtered list is a subsequence of the full list: its
elements are elements of the full list, none occurs more often than there, and the order is
kept. -/
theorem filtered_is_subsequence (toLowerCase : String → String) (s : State) (h : Reachable toLowerCase s) :
    s.filteredInternships.Sublist s.allInternships ∧
    (∀ i ∈ s.filteredInternships, i ∈ s.allInternships) ∧
    (∀ i, s.filteredInternships.count i ≤ s.allInternships.count i) := by
  have hs := (inv_of_reachable h).sublist
  exact ⟨hs, fun i hi => hs.subset hi, fun i => hs.count_le i⟩

theorem filtered_is_subsequence_witness :
    Reachable asciiLower (run asciiLower sampleState [.searchTyped "acme", .pageLinkClicked 1]) ∧
    (run asciiLower sampleState [.searchTyped "acme", .pageLinkClicked 1]).filteredInternships.Sublist
      (run asciiLower sampleState [.searchTyped "acme", .pageLinkClicked 1]).allInternships ∧
    (∀ i ∈ (run asciiLower sampleState [.searchTyped "acme", .pageLinkClicked 1]).filteredInternships,
      i ∈ (run asciiLower sampleState [.searchTyped "acme", .pageLinkClicked 1]).allInternships) ∧
    (∀ i, (run asciiLower sampleState [.searchTyped "acme", .pageLinkClicked 1]).filteredInternships.count i
      ≤ (run asciiLower sampleState [.searchTyped "acme", .pageLinkClicked 1]).allInternships.count i) :=
  ⟨reachable_run reachable_sampleState _,
    filtered_is_subsequence asciiLower _ (reachable_run reachable_sampleState _)⟩

/-- C4: in every reachable state, hence at every run of `renderInternships` (which is the last
thing a transition does and leaves the variables alone), the page `p` satisfies
`1 ≤ p ≤ max(1, ceil(filteredCount / 10))`, and the slice of the page is empty only when the
filtered list is empty. -/
theorem currentPage_within_pages (toLowerCase : String → String) (s : State) (h : Reachable toLowerCase s) :
    1 ≤ s.currentPage ∧
    s.currentPage ≤ max 1 (ceilPages s.filteredInternships.length : Int) ∧
    ceilPages s.filteredInternships.length = ⌈(s.filteredInternships.length : ℚ) / 10⌉₊ ∧
    (currentInternships s.filteredInternships s.currentPage = [] →
      s.filteredInternships = []) := by
  have hi := inv_of_reachable h
  refine ⟨hi.one_le, hi.le_pages, ceilPages_eq_ceil _, ?_⟩
  intro he
  by_contra hne
  have hpos : 0 < s.filteredInternships.length := List.length_pos.mpr hne
  have h1 := ceilPages_pos hpos
  have hle : s.currentPage ≤ (ceilPages s.filteredInternships.length : Int) := by
    have := hi.le_pages
    omega
  exact currentInternships_ne_nil _ hi.one_le hle he

theorem currentPage_within_pages_witness :
    Reachable asciiLower (run asciiLower loadedState [.pageLinkClicked 3, .pageLinkClicked 4]) ∧
    1 ≤ (run asciiLower loadedState [.pageLinkClicked 3, .pageLinkClicked 4]).currentPage ∧
    (run asciiLower loadedState [.pageLinkClicked 3, .pageLinkClicked 4]).currentPage ≤ max 1
      (ceilPages
        (run asciiLower loadedState [.pageLinkClicked 3, .pageLinkClicked 4]).filteredInternships.length : Int) ∧
    (run asciiLower loadedState [.pageLinkClicked 3, .pageLinkClicked 4]).currentPage = 3 :=
  have h := currentPage_within_pages asciiLower (run asciiLower loadedState [.pageLinkClicked 3, .pageLinkClicked 4])
    (reachable_run reachable_loadedState _)
  ⟨reachable_run reachable_loadedState _, h.1, h.2.1, by decide⟩

/-- C6: activating a pagination link with target `t` (`none` when the link has no numeric
`data-page`) changes the variables exactly when `t` is a page `p` other than the current one
with `1 ≤ p ≤ totalPages = ceil(filteredCount / 10)`; then the page becomes `p` and the lists
stay. For every other target (none, 0, `totalPages + 1`, the current page, anything out of
range) the state stays as it is. -/
theorem pageLink_activation (toLowerCase : String → String) (s : State) (h : Reachable toLowerCase s) (control : Pagination)
    (hc : s.pagination = some control) (t : Option Int) :
    control.totalPages = ceilPages s.filteredInternships.length ∧
    ceilPages s.filteredInternships.length = ⌈(s.filteredInternships.length : ℚ) / 10⌉₊ ∧
    (∀ k item, control.items[k]? = some item →
      step toLowerCase s (.pageLinkClicked k) = pageLinkHandler control.totalPages item.dataPage s) ∧
    ((pageLinkHandler control.totalPages t s).vars ≠ s.vars ↔
      ∃ p : Int, t = some p ∧ p ≠ s.currentPage ∧ 1 ≤ p ∧
        p ≤ (ceilPages s.filteredInternships.length : Int)) ∧
    (∀ p : Int, t = some p → p ≠ s.currentPage → 1 ≤ p →
      p ≤ (ceilPages s.filteredInternships.length : Int) →
        (pageLinkHandler control.totalPages t s).vars
          = (s.allInternships, s.allCompanies, s.filteredInternships, p)) ∧
    ((¬ ∃ p : Int, t = some p ∧ p ≠ s.currentPage ∧ 1 ≤ p ∧
        p ≤ (ceilPages s.filteredInternships.length : Int)) →
      pageLinkHandler control.totalPages t s = s) ∧
    (t = none ∨ t = some 0 ∨ t = some ((control.totalPages : Int) + 1) ∨
        t = some s.currentPage →
      pageLinkHandler control.totalPages t s = s) := by
  have hT := ((inv_of_reachable h).links control hc).1
  have hfire : ∀ p : Int, p ≠ s.currentPage → 1 ≤ p →
      p ≤ (ceilPages s.filteredInternships.length : Int) →
      (pageLinkHandler control.totalPages (some p) s).vars
        = (s.allInternships, s.allCompanies, s.filteredInternships, p) := by
    intro p h₁ h₂ h₃
    unfold pageLinkHandler
    dsimp only
    rw [if_pos ⟨by omega, h₁, by omega, by rw [hT]; exact h₃⟩]
    obtain ⟨e₁, e₂, e₃, e₄, -⟩ := renderInternships_vars { s with currentPage := p }
    simp only [State.vars, e₁, e₂, e₃, e₄]
  have hstay : (¬ ∃ p : Int, t = some p ∧ p ≠ s.currentPage ∧ 1 ≤ p ∧
        p ≤ (ceilPages s.filteredInternships.length : Int)) →
      pageLinkHandler control.totalPages t s = s := by
    intro hn
    unfold pageLinkHandler
    cases t with
    | none => rfl
    | some p =>
      dsimp only
      rw [if_neg]
      rintro ⟨-, h₁, h₂, h₃⟩
      exact hn ⟨p, rfl, h₁, by omega, by rw [← hT]; exact h₃⟩
  refine ⟨hT, ceilPages_eq_ceil _, ?_, ?_, ?_, hstay, ?_⟩
  · intro k item hk
    simp only [step, hc, hk]
  · constructor
    · intro hne
      by_contra hn
      exact hne (by rw [hstay hn])
    · rintro ⟨p, rfl, h₁, h₂, h₃⟩
      rw [hfire p h₁ h₂ h₃]
      intro heq
      simp only [State.vars, Prod.mk.injEq] at heq
      exact h₁ heq.2.2.2
  · rintro p rfl h₁ h₂ h₃
    exact hfire p h₁ h₂ h₃
  · intro ht
    apply hstay
    rintro ⟨p, hp, h₁, h₂, h₃⟩
    rw [← hT] at h₃
    rcases ht with ht | ht | ht | ht <;> rw [ht] at hp
    · cases hp
    · simp only [Option.some.injEq] at hp; omega
    · simp only [Option.some.injEq] at hp; omega
    · simp only [Option.some.injEq] at hp; exact h₁ hp.symm

theorem pageLink_activation_witness :
    Reachable asciiLower loadedState ∧
    loadedState.pagination = some ⟨paginationItems 1 3, 3⟩ ∧
    pageLinkHandler 3 (some 4) loadedState = loadedState ∧
    pageLinkHandler 3 (some 0) loadedState = loadedState ∧
    (pageLinkHandler 3 (some 2) loadedState).vars
      = (loadedState.allInternships, loadedState.allCompanies,
          loadedState.filteredInternships, 2) :=
  ⟨reachable_loadedState, by decide,
    (pageLink_activation asciiLower loadedState reachable_loadedState ⟨paginationItems 1 3, 3⟩ (by decide)
      (some 4)).2.2.2.2.2.2 (Or.inr (Or.inr (Or.inl rfl))),
    (pageLink_activation asciiLower loadedState reachable_loadedState ⟨paginationItems 1 3, 3⟩ (by decide)
      (some 0)).2.2.2.2.2.2 (Or.inr (Or.inl rfl)),
    (pageLink_activation asciiLower loadedState reachable_loadedState ⟨paginationItems 1 3, 3⟩ (by decide)
      (some 2)).2.2.2.2.1 2 rfl (by decide) (by decide) (by decide)⟩

/-! ### C7: the numbered links -/

theorem mem_loopIndices {T : Nat} {i : Int} : i ∈ loopIndices T ↔ 1 ≤ i ∧ i ≤ (T : Int) := by
  unfold loopIndices
  rw [List.mem_map]
  constructor
  · rintro ⟨n, hn, rfl⟩
    rw [List.mem_range'_1] at hn
    omega
  · rintro ⟨h₁, h₂⟩
    exact ⟨i.toNat, List.mem_range'_1.mpr (by omega), by omega⟩

theorem pairwise_loopIndices (T : Nat) : (loopIndices T).Pairwise (· < ·) := by
  unfold loopIndices
  exact List.Pairwise.map _ (fun a b h => by exact_mod_cast h) (List.pairwise_lt_range' 1 T)

theorem numberedPages_paginationItems (c : Int) (T : Nat) :
    numberedPages (paginationItems c T)
      = (loopIndices T).filter fun i =>
          decide (i = 1 ∨ i = (T : Int) ∨ (i ≥ c - 2 ∧ i ≤ c + 2)) := by
  unfold numberedPages paginationItems
  rw [List.filterMap_append, List.filterMap_append, List.filterMap_filterMap,
    ← List.filterMap_eq_filter]
  simp only [List.filterMap_cons, List.filterMap_nil, PageItem.numbered?, List.nil_append,
    List.append_nil]
  apply List.filterMap_congr
  intro x _
  unfold pageLoopItem Option.guard
  by_cases hw : x = 1 ∨ x = (T : Int) ∨ (x ≥ c - 2 ∧ x ≤ c + 2)
  · rw [if_pos hw]
    simp only [decide_eq_true_eq, if_pos hw]
    rfl
  · rw [if_neg hw]
    simp only [decide_eq_true_eq, if_neg hw]
    split_ifs <;> rfl

theorem activePages_paginationItems (c : Int) (T : Nat) :
    activePages (paginationItems c T)
      = (loopIndices T).filter fun i =>
          decide ((i = 1 ∨ i = (T : Int) ∨ (i ≥ c - 2 ∧ i ≤ c + 2)) ∧ i = c) := by
  unfold activePages paginationItems
  rw [List.filterMap_append, List.filterMap_append, List.filterMap_filterMap,
    ← List.filterMap_eq_filter]
  simp only [List.filterMap_cons, List.filterMap_nil, PageItem.active?, List.nil_append,
    List.append_nil]
  apply List.filterMap_congr
  intro x _
  unfold pageLoopItem Option.guard
  by_cases hw : x = 1 ∨ x = (T : Int) ∨ (x ≥ c - 2 ∧ x ≤ c + 2)
  · rw [if_pos hw]
    by_cases hc : x = c
    · simp only [Option.some_bind, PageItem.active?, hc, decide_True]
      subst hc
      simp [hw]
    · simp [PageItem.active?, hc]
  · rw [if_neg hw]
    have : ¬ ((x = 1 ∨ x = (T : Int) ∨ (x ≥ c - 2 ∧ x ≤ c + 2)) ∧ x = c) := fun h => hw h.1
    simp only [decide_eq_true_eq, if_neg this]
    split_ifs <;> rfl

theorem eq_singleton_of_pairwise_lt {l : List Int} {c : Int} (hp : l.Pairwise (· < ·))
    (hall : ∀ x ∈ l, x = c) (hc : c ∈ l) : l = [c] := by
  match l, hp, hall, hc with
  | [], _, _, hc => cases hc
  | [x], _, hall, _ => rw [hall x (List.mem_singleton.mpr rfl)]
  | x :: y :: l, hp, hall, _ =>
    have h₁ := hall x (List.mem_cons_self _ _)
    have h₂ := hall y (List.mem_cons_of_mem _ (List.mem_cons_self _ _))
    have := (List.pairwise_cons.mp hp).1 y (List.mem_cons_self _ _)
    omega

/-- C7: for `T ≥ 2` pages and a current page `1 ≤ c ≤ T`, the numbered links that
`renderPagination` writes are the pages `i` of `[1, T]` with `i = 1`, `i = T` or
`c-2 ≤ i ≤ c+2`, each once and in ascending order, and the one link marked active is that of
page `c`. -/
theorem numbered_links_window (T : Nat) (c : Int) (hT : 2 ≤ T) (h₁ : 1 ≤ c)
    (h₂ : c ≤ (T : Int)) :
    (∀ s : State, s.currentPage = c → ceilPages s.filteredInternships.length = T →
      (renderPagination s).pagination = some ⟨paginationItems c T, T⟩) ∧
    (∀ i : Int, i ∈ numberedPages (paginationItems c T) ↔
      (1 ≤ i ∧ i ≤ (T : Int)) ∧ (i = 1 ∨ i = (T : Int) ∨ (c - 2 ≤ i ∧ i ≤ c + 2))) ∧
    (numberedPages (paginationItems c T)).Pairwise (· < ·) ∧
    (numberedPages (paginationItems c T)).Nodup ∧
    activePages (paginationItems c T) = [c] := by
  refine ⟨?_, ?_, ?_, ?_, ?_⟩
  · intro s hs hlen
    unfold renderPagination
    dsimp only
    rw [hlen, hs, if_neg (by omega)]
  · intro i
    rw [numberedPages_paginationItems, List.mem_filter, mem_loopIndices, decide_eq_true_eq]
  · rw [numberedPages_paginationItems]
    exact (pairwise_loopIndices T).filter _
  · rw [numberedPages_paginationItems]
    exact ((pairwise_loopIndices T).filter _).imp (fun h => ne_of_lt h)
  · rw [activePages_paginationItems]
    apply eq_singleton_of_pairwise_lt ((pairwise_loopIndices T).filter _)
    · intro x hx
      rw [List.mem_filter, decide_eq_true_eq] at hx
      exact hx.2.2
    · rw [List.mem_filter, decide_eq_true_eq, mem_loopIndices]
      exact ⟨⟨h₁, h₂⟩, Or.inr (Or.inr ⟨by omega, by omega⟩), rfl⟩

theorem numbered_links_window_witness :
    2 ≤ 10 ∧ (1 : Int) ≤ 5 ∧ (5 : Int) ≤ ((10 : Nat) : Int) ∧
    numberedPages (paginationItems 5 10) = [1, 3, 4, 5, 6, 7, 10] ∧
    (numberedPages (paginationItems 5 10)).Pairwise (· < ·) ∧
    (numberedPages (paginationItems 5 10)).Nodup ∧
    activePages (paginationItems 5 10) = [5] :=
  have h := numbered_links_window 10 5 (by decide) (by decide) (by decide)
  ⟨by decide, by decide, by decide, by decide, h.2.2.1, h.2.2.2.1, h.2.2.2.2⟩

/-! ### C8: gaps between numbered links -/

theorem pageLoopItem_number {c : Int} {T : Nat} {i p : Int} {f : Bool}
    (h : pageLoopItem c T i = some (.number p f)) :
    p = i ∧ (i = 1 ∨ i = (T : Int) ∨ (c - 2 ≤ i ∧ i ≤ c + 2)) := by
  unfold pageLoopItem at h
  split_ifs at h with hw he
  · simp only [Option.some.injEq, PageItem.number.injEq] at h
    exact ⟨h.1.symm, by omega⟩
  · cases h

theorem pageLoopItem_none {c : Int} {T : Nat} {i : Int} (h : pageLoopItem c T i = none) :
    ¬ (i = 1 ∨ i = (T : Int) ∨ (c - 2 ≤ i ∧ i ≤ c + 2)) ∧ i ≠ c - 3 ∧ i ≠ c + 3 := by
  unfold pageLoopItem at h
  split_ifs at h with hw he
  exact ⟨by omega, by omega, by omega⟩

theorem pageLoopItem_loopItem? (c : Int) (T : Nat) (i : Int) :
    (pageLoopItem c T i).bind PageItem.loopItem? = pageLoopItem c T i := by
  unfold pageLoopItem
  split_ifs <;> rfl

theorem filterMap_loopItem?_paginationItems (c : Int) (T : Nat) :
    (paginationItems c T).filterMap PageItem.loopItem?
      = (loopIndices T).filterMap (pageLoopItem c T) := by
  unfold paginationItems
  rw [List.filterMap_append, List.filterMap_append, List.filterMap_filterMap]
  simp only [List.filterMap_cons, List.filterMap_nil, PageItem.loopItem?, List.nil_append,
    List.append_nil]
  exact List.filterMap_congr fun x _ => pageLoopItem_loopItem? c T x

theorem mem_between_of_pairwise {l₀ l₃ l₄ : List Int} {a b i : Int}
    (hp : (l₀ ++ a :: (l₃ ++ b :: l₄)).Pairwise (· < ·))
    (hi : i ∈ l₀ ++ a :: (l₃ ++ b :: l₄)) (h₁ : a < i) (h₂ : i < b) : i ∈ l₃ := by
  rw [List.pairwise_append, List.pairwise_cons, List.pairwise_append, List.pairwise_cons] at hp
  obtain ⟨-, ⟨-, -, ⟨hb, -⟩, -⟩, h0⟩ := hp
  rw [List.mem_append, List.mem_cons, List.mem_append, List.mem_cons] at hi
  rcases hi with hi | hi | hi | hi | hi
  · have := h0 i hi a (List.mem_cons_self _ _); omega
  · omega
  · exact hi
  · omega
  · have := hb i hi; omega

theorem lt_of_pairwise_split {l₀ l₃ l₄ : List Int} {a b : Int}
    (hp : (l₀ ++ a :: (l₃ ++ b :: l₄)).Pairwise (· < ·)) : a < b := by
  rw [List.pairwise_append, List.pairwise_cons] at hp
  exact hp.2.1.1 b (List.mem_append_right _ (List.mem_cons_self _ _))

theorem no_unlabeledGap (T : Nat) (c : Int) (h₁ : 1 ≤ c) (h₂ : c ≤ (T : Int)) :
    ¬ UnlabeledGap (paginationItems c T) := by
  rintro ⟨pre, mid, post, a, b, fa, fb, hitems, hmid, hell, hgap⟩
  have hmid' : mid.filterMap PageItem.loopItem? = [] := by
    rw [List.filterMap_eq_nil_iff]
    intro x hx
    cases x with
    | previous d p => rfl
    | number p f => exact absurd (hmid _ hx) (by simp [PageItem.numbered?])
    | ellipsis => exact absurd hx hell
    | next d p => rfl
  have hL := congrArg (List.filterMap PageItem.loopItem?) hitems
  rw [filterMap_loopItem?_paginationItems] at hL
  simp only [List.filterMap_append, hmid', List.filterMap_cons, List.filterMap_nil,
    PageItem.loopItem?, List.append_nil, List.append_assoc, List.singleton_append] at hL
  obtain ⟨R₁, R₂, hR, -, hR₂⟩ := List.filterMap_eq_append_iff.mp hL
  obtain ⟨l₁, r, l₂, hR₂', -, hr, hl₂⟩ := List.filterMap_eq_cons_iff.mp hR₂
  obtain ⟨l₃, r', l₄, hl₂', hl₃, hr', -⟩ := List.filterMap_eq_cons_iff.mp hl₂
  obtain ⟨rfl, ha⟩ := pageLoopItem_number hr
  obtain ⟨rfl, hb⟩ := pageLoopItem_number hr'
  have hsplit : loopIndices T = (R₁ ++ l₁) ++ a :: (l₃ ++ b :: l₄) := by
    rw [hR, hR₂', hl₂', List.append_assoc]
  have hp := pairwise_loopIndices T
  rw [hsplit] at hp
  have hab := lt_of_pairwise_split hp
  have hamem : a ∈ loopIndices T := by rw [hsplit]; simp
  have hbmem : b ∈ loopIndices T := by rw [hsplit]; simp
  rw [mem_loopIndices] at hamem hbmem
  have hnone : ∀ i : Int, a < i → i < b → pageLoopItem c T i = none := by
    intro i hi₁ hi₂
    have hi : i ∈ loopIndices T := mem_loopIndices.mpr ⟨by omega, by omega⟩
    rw [hsplit] at hi
    exact hl₃ i (mem_between_of_pairwise hp hi hi₁ hi₂)
  have hgap' : a + 1 < b := by omega
  have hA := pageLoopItem_none (hnone (a + 1) (by omega) hgap')
  have hB := pageLoopItem_none (hnone (b - 1) (by omega) (by omega))
  by_cases hcab : a < c ∧ c < b
  · have hC := pageLoopItem_none (hnone c hcab.1 hcab.2)
    omega
  · omega

/-- C8, refuted as stated: for no `T ≥ 2` and `1 ≤ c ≤ T` does the pagination list contain an
unlabeled gap. -/
theorem unlabeledGap_never :
    ¬ ∃ (T : Nat) (c : Int), 2 ≤ T ∧ 1 ≤ c ∧ c ≤ (T : Int) ∧
        UnlabeledGap (paginationItems c T) := by
  rintro ⟨T, c, -, h₁, h₂, hgap⟩
  exact no_unlabeledGap T c h₁ h₂ hgap

/-- C8, amended: for every `T ≥ 2` and `1 ≤ c ≤ T`, whenever two numbered links follow one
another among the numbered links of the pagination list and their pages differ by more than
1, an ellipsis item stands between them. -/
theorem gaps_carry_ellipsis (T : Nat) (c : Int) (_hT : 2 ≤ T) (h₁ : 1 ≤ c)
    (h₂ : c ≤ (T : Int)) (pre mid post : List PageItem) (a b : Int) (fa fb : Bool)
    (hitems : paginationItems c T = pre ++ [.number a fa] ++ mid ++ [.number b fb] ++ post)
    (hmid : ∀ x ∈ mid, x.numbered? = none) (hgap : 1 < b - a ∨ 1 < a - b) :
    PageItem.ellipsis ∈ mid := by
  by_contra hell
  exact no_unlabeledGap T c h₁ h₂ ⟨pre, mid, post, a, b, fa, fb, hitems, hmid, hell, hgap⟩

theorem gaps_carry_ellipsis_witness :
    2 ≤ 10 ∧ (1 : Int) ≤ 5 ∧ (5 : Int) ≤ ((10 : Nat) : Int) ∧
    paginationItems 5 10
      = [.previous false 4] ++ [.number 1 false] ++ [.ellipsis] ++ [.number 3 false] ++
        [.number 4 false, .number 5 true, .number 6 false, .number 7 false, .ellipsis,
          .number 10 false, .next false 6] ∧
    PageItem.ellipsis ∈ [PageItem.ellipsis] :=
  ⟨by decide, by decide, by decide, by decide,
    gaps_carry_ellipsis 10 5 (by decide) (by decide) (by decide)
      [.previous false 4] [.ellipsis]
      [.number 4 false, .number 5 true, .number 6 false, .number 7 false, .ellipsis,
        .number 10 false, .next false 6]
      1 3 false false (by decide) (by decide) (by decide)⟩

/-! ### C9: after a failed load -/

theorem currentInternships_nil {α : Type} (p : Int) : currentInternships ([] : List α) p = [] := by
  simp [currentInternships, slice]

theorem failedDisplay_render {s : State} (h₁ : s.fetchStage = .settled)
    (h₂ : s.allInternships = []) (h₃ : s.filteredInternships = []) :
    FailedDisplay (renderInternships s) true := by
  obtain ⟨e₁, -, e₃, -, e₅⟩ := renderInternships_vars s
  have hr : renderInternships s = { s with tableBody := .noMatch, pagination := none } := by
    unfold renderInternships
    dsimp only
    rw [h₃, currentInternships_nil]
    rfl
  exact ⟨by rw [e₅, h₁], by rw [e₁, h₂], by rw [e₃, h₃], by rw [hr], by rw [hr]; rfl⟩

theorem failedDisplay_step {s : State} {b : Bool} (h : FailedDisplay s b) (e : Event) :
    FailedDisplay (step toLowerCase s e) (b || e.refilters) := by
  cases e with
  | companiesArrived cs =>
    simp only [step, h.settled, Event.refilters, Bool.or_false]
    exact h
  | internshipsArrived is =>
    simp only [step, h.settled, Event.refilters, Bool.or_false]
    exact h
  | fetchRejected =>
    simp only [step, h.settled, Event.refilters, Bool.or_false]
    exact h
  | searchTyped text =>
    simp only [step, Event.refilters, Bool.or_true]
    unfold filterInternships
    exact failedDisplay_render h.settled h.noInternships (by simp [h.noInternships])
  | industryChosen v =>
    simp only [step, Event.refilters, Bool.or_true]
    unfold filterInternships
    exact failedDisplay_render h.settled h.noInternships (by simp [h.noInternships])
  | marketChosen v =>
    simp only [step, Event.refilters, Bool.or_true]
    unfold filterInternships
    exact failedDisplay_render h.settled h.noInternships (by simp [h.noInternships])
  | resetClicked =>
    simp only [step, Event.refilters, Bool.or_true]
    unfold resetFilters
    exact failedDisplay_render h.settled h.noInternships h.noInternships
  | pageLinkClicked k =>
    simp only [step, h.noLinks, Event.refilters, Bool.or_false]
    exact h

theorem failedDisplay_run {s : State} {b : Bool} (h : FailedDisplay s b) (events : List Event) :
    FailedDisplay (run toLowerCase s events) (b || events.any Event.refilters) := by
  induction events generalizing s b with
  | nil => simpa [run] using h
  | cons e es ih =>
    have := ih (@failedDisplay_step toLowerCase _ _ h e)
    simpa [run, List.any_cons, Bool.or_assoc] using this

theorem failedDisplay_catch {s : State} (hs : Reachable toLowerCase s) (hp : s.fetchStage ≠ .settled) :
    FailedDisplay (step toLowerCase s .fetchRejected) false := by
  have hi := inv_of_reachable hs
  have hall := hi.pending hp
  have hf : s.filteredInternships = [] := by
    have := hi.sublist
    rw [hall] at this
    exact List.sublist_nil.mp this
  have hl : s.pagination = none := by
    cases hpg : s.pagination with
    | none => rfl
    | some control =>
      obtain ⟨h₁, -, h₂⟩ := hi.links control hpg
      rw [hf] at h₁
      simp [ceilPages, itemsPerPage] at h₁
      omega
  simp only [step, if_neg hp]
  exact ⟨rfl, hall, hf, hl, rfl⟩

/-- C9, refuted as stated: after a failed load the failure row does not stay. A change of
the search text, or a click on reset, runs `renderInternships`, which replaces the failure
row by the "nothing matches" row; this holds whether the first or the second read failed. -/
theorem failure_row_is_overwritten :
    (step asciiLower initialState .fetchRejected).tableBody = .loadFailure ∧
    Event.isUserAction (.searchTyped "intern") = true ∧
    (run asciiLower (step asciiLower initialState .fetchRejected) [.searchTyped "intern"]).tableBody = .noMatch ∧
    (run asciiLower (step asciiLower initialState .fetchRejected) [.searchTyped "intern"]).tableBody ≠ .loadFailure ∧
    (step asciiLower (step asciiLower initialState (.companiesArrived sampleCompanies)) .fetchRejected).tableBody
      = .loadFailure ∧
    (run asciiLower (step asciiLower (step asciiLower initialState (.companiesArrived sampleCompanies)) .fetchRejected)
      [.resetClicked]).tableBody ≠ .loadFailure := by
  decide

/-- C9, amended: when the read that `fetchData` waits for fails, the table body shows the one
failure row and there is no pagination link. Under every later sequence of events the lists
of internships stay empty and there is no pagination link; the table body shows the failure
row as long as no search, industry or market change and no reset has happened, and the one
"nothing matches" row from the first such action on. -/
theorem failed_load_display (toLowerCase : String → String) (s : State) (hs : Reachable toLowerCase s) (hp : s.fetchStage ≠ .settled)
    (actions : List Event) :
    (step toLowerCase s .fetchRejected).tableBody = .loadFailure ∧
    (run toLowerCase (step toLowerCase s .fetchRejected) actions).allInternships = [] ∧
    (run toLowerCase (step toLowerCase s .fetchRejected) actions).filteredInternships = [] ∧
    (run toLowerCase (step toLowerCase s .fetchRejected) actions).pagination = none ∧
    (run toLowerCase (step toLowerCase s .fetchRejected) actions).tableBody
      = if actions.any Event.refilters then .noMatch else .loadFailure := by
  have h₀ := failedDisplay_catch hs hp
  have h := @failedDisplay_run toLowerCase _ _ h₀ actions
  rw [Bool.false_or] at h
  exact ⟨h₀.body, h.noInternships, h.noFiltered, h.noLinks, h.body⟩

theorem failed_load_display_witness :
    Reachable asciiLower (step asciiLower initialState (.companiesArrived sampleCompanies)) ∧
    (step asciiLower initialState (.companiesArrived sampleCompanies)).fetchStage ≠ .settled ∧
    (run asciiLower (step asciiLower (step asciiLower initialState (.companiesArrived sampleCompanies)) .fetchRejected)
      [.pageLinkClicked 0, .industryChosen "IT", .pageLinkClicked 1]).tableBody
        = if [Event.pageLinkClicked 0, .industryChosen "IT", .pageLinkClicked 1].any
            Event.refilters then .noMatch else .loadFailure :=
  ⟨reachable_run ⟨[], rfl⟩ [.companiesArrived sampleCompanies], by decide,
    (failed_load_display asciiLower (step asciiLower initialState (.companiesArrived sampleCompanies))
      (reachable_run ⟨[], rfl⟩ [.companiesArrived sampleCompanies]) (by decide)
      [.pageLinkClicked 0, .industryChosen "IT", .pageLinkClicked 1]).2.2.2.2⟩

/-! ### C10: the industry options -/

theorem industries_concat (cs : List Company) (c : Company) :
    industries (cs ++ [c]) =
      match c.industry with
      | some v => if truthy v then (if v ∈ industries cs then industries cs
                    else industries cs ++ [v]) else industries cs
      | none => industries cs := by
  simp only [industries, List.foldl_append, List.foldl_cons, List.foldl_nil]

theorem mem_industries (cs : List Company) (v : String) :
    v ∈ industries cs ↔ v ≠ "" ∧ ∃ c ∈ cs, c.industry = some v := by
  induction cs using List.reverseRecOn with
  | nil => simp [industries]
  | append_singleton cs c ih =>
    rw [industries_concat]
    have hsplit : (∃ d ∈ cs ++ [c], d.industry = some v) ↔
        (∃ d ∈ cs, d.industry = some v) ∨ c.industry = some v := by
      simp [List.mem_append, or_and_right, exists_or]
    rw [hsplit]
    cases hci : c.industry with
    | none =>
      simp only [ih]
      constructor
      · rintro ⟨h₁, h₂⟩; exact ⟨h₁, Or.inl h₂⟩
      · rintro ⟨h₁, h₂ | h₂⟩
        · exact ⟨h₁, h₂⟩
        · cases h₂
    | some w =>
      dsimp only
      by_cases hw : truthy w = true
      · rw [if_pos hw]
        have hw' := (truthy_iff w).mp hw
        by_cases hm : w ∈ industries cs
        · rw [if_pos hm, ih]
          constructor
          · rintro ⟨h₁, h₂⟩; exact ⟨h₁, Or.inl h₂⟩
          · rintro ⟨h₁, h₂ | h₂⟩
            · exact ⟨h₁, h₂⟩
            · have : w = v := Option.some.inj h₂
              subst this
              exact (ih.mp hm)
        · rw [if_neg hm, List.mem_append, List.mem_singleton, ih]
          constructor
          · rintro (⟨h₁, h₂⟩ | rfl)
            · exact ⟨h₁, Or.inl h₂⟩
            · exact ⟨hw', Or.inr rfl⟩
          · rintro ⟨h₁, h₂ | h₂⟩
            · exact Or.inl ⟨h₁, h₂⟩
            · exact Or.inr (Option.some.inj h₂).symm
      · rw [if_neg hw, ih]
        have hw' : w = "" := by
          by_contra hne
          exact hw ((truthy_iff w).mpr hne)
        constructor
        · rintro ⟨h₁, h₂⟩; exact ⟨h₁, Or.inl h₂⟩
        · rintro ⟨h₁, h₂ | h₂⟩
          · exact ⟨h₁, h₂⟩
          · exact absurd ((Option.some.inj h₂).symm.trans hw') h₁

theorem nodup_industries (cs : List Company) : (industries cs).Nodup := by
  induction cs using List.reverseRecOn with
  | nil => simp [industries]
  | append_singleton cs c ih =>
    rw [industries_concat]
    cases c.industry with
    | none => exact ih
    | some w =>
      dsimp only
      split_ifs with hw hm
      · exact ih
      · rw [List.nodup_append]
        exact ⟨ih, List.nodup_singleton _, by simpa using hm⟩
      · exact ih

theorem firstOccurrence_lt {cs : List Company} {v : String} (h : v ∈ industries cs) :
    firstOccurrence cs v < cs.length := by
  obtain ⟨c, hc, hv⟩ := ((mem_industries cs v).mp h).2
  exact List.findIdx_lt_length_of_exists ⟨c, hc, by simpa using hv⟩

theorem industries_order (cs : List Company) :
    (industries cs).Pairwise fun u v => firstOccurrence cs u < firstOccurrence cs v := by
  induction cs using List.reverseRecOn with
  | nil => simp [industries]
  | append_singleton cs c ih =>
    have hold : ∀ u ∈ industries cs,
        firstOccurrence (cs ++ [c]) u = firstOccurrence cs u := by
      intro u hu
      have := firstOccurrence_lt hu
      unfold firstOccurrence at this ⊢
      rw [List.findIdx_append, if_pos this]
    have hkeep : (industries cs).Pairwise fun u v =>
        firstOccurrence (cs ++ [c]) u < firstOccurrence (cs ++ [c]) v := by
      refine ih.imp_of_mem ?_
      intro a b ha hb hab
      rw [hold a ha, hold b hb]
      exact hab
    rw [industries_concat]
    cases hci : c.industry with
    | none => exact hkeep
    | some w =>
      dsimp only
      split_ifs with hw hm
      · exact hkeep
      · rw [List.pairwise_append]
        refine ⟨hkeep, List.pairwise_singleton _ _, ?_⟩
        intro u hu v hv
        rw [List.mem_singleton] at hv
        subst hv
        have hnot : ¬ firstOccurrence cs v < cs.length := by
          intro hlt
          obtain ⟨d, hd, hdv⟩ := List.findIdx_lt_length.mp hlt
          exact hm ((mem_industries cs v).mpr
            ⟨(truthy_iff v).mp hw, d, hd, by simpa using hdv⟩)
        have hu' := firstOccurrence_lt hu
        rw [hold u hu]
        unfold firstOccurrence at hnot ⊢
        rw [List.findIdx_append, if_neg hnot]
        unfold firstOccurrence at hu'
        omega
      · exact hkeep

/-- C10: the options that `populateIndustryFilter` appends are the distinct non-empty
industry values of the company list: each once, in the order of their first occurrence in
the list; a company whose industry is missing or empty adds none. Two companies, one with
industry "IT" and one without, give the single option "IT". -/
theorem industry_options (s : State) :
    (populateIndustryFilter s).industryOptions
      = s.industryOptions ++ industries s.allCompanies ∧
    (industries s.allCompanies).Nodup ∧
    (∀ v, v ∈ industries s.allCompanies ↔
      v ≠ "" ∧ ∃ c ∈ s.allCompanies, c.industry = some v) ∧
    ((industries s.allCompanies).Pairwise fun u v =>
      firstOccurrence s.allCompanies u < firstOccurrence s.allCompanies v) ∧
    industries
      [{ id := .num 1, industry := some "IT", market := none },
       { id := .num 2, industry := none, market := none }] = ["IT"] :=
  ⟨rfl, nodup_industries _, mem_industries _, industries_order _, by decide⟩

end InternScraper
